import Mathlib

/-!
Shallow embedding of `minidisc.py` (a MINIature DISCovery service for
Tailscale) and proofs about it.

The embedding models:
* the `Service` pydantic model with its `addrPort` wire alias, the
  `parse_addr_port` validator and the `serialize_addr_port` serializer;
* the local registry (`advertise_service`, `unlist_service`, `services`);
* the discovery client (`list_services`, `find_service`, `_labels_match`,
  `_get_remote_services` outcomes);
* the node's HTTP handlers (`/services` aggregation with delegate
  eviction, `/add-delegate` registration) and `_add_delegate`.

Machine strings are Lean `String` / `List Char`; Python `int` is `Int`;
fallible Python code (exceptions) returns `Option` / `Except`.
-/

namespace Minidisc

/-! ### Decimal digits: Python `int(...)` parsing and `str(...)` rendering -/

/-- Value accumulated by scanning decimal digits left to right
(the semantics of Python `int` on an all-digit string). -/
def parseDigits (l : List Char) : Nat :=
  l.foldl (fun a c => 10 * a + (c.toNat - 48)) 0

/-- The character for a decimal digit `n < 10`. -/
def digitChar (n : Nat) : Char := Char.ofNat (48 + n)

/-- Decimal rendering of a natural number, fuel-indexed so that it is
structurally recursive (any `fuel > n` gives the true digits). -/
def renderNatCore : Nat → Nat → List Char
  | 0, _ => []
  | fuel + 1, n =>
    if n < 10 then [digitChar n]
    else renderNatCore fuel (n / 10) ++ [digitChar (n % 10)]

/-- Decimal digit string of a natural number (Python `str` on a `Nat`). -/
def renderNatChars (n : Nat) : List Char := renderNatCore (n + 1) n

/-- Decimal rendering of an integer (Python `str` on an `int`). -/
def renderInt (i : Int) : List Char :=
  if i < 0 then '-' :: renderNatChars i.natAbs else renderNatChars i.toNat

/-- Python `int(s)`: an optional leading minus sign followed by a nonempty
run of decimal digits; anything else raises `ValueError` (`none`). -/
def pyIntChars (l : List Char) : Option Int :=
  match l with
  | [] => none
  | c :: rest =>
    if c = '-' then
      if rest.isEmpty then none
      else if rest.all Char.isDigit then some (-(parseDigits rest : Int))
      else none
    else if (c :: rest).all Char.isDigit then some ((parseDigits (c :: rest) : Nat) : Int)
    else none

/-! ### Splitting -/

/-- Python `s.split(sep, 1)` when `sep` occurs: the parts before and after
the first occurrence. `none` when `sep` does not occur (in the source this
makes the two-element tuple unpacking raise `ValueError`). -/
def splitFirst (sep : Char) : List Char → Option (List Char × List Char)
  | [] => none
  | c :: rest =>
    if c = sep then some ([], rest)
    else (splitFirst sep rest).map (fun p => (c :: p.1, p.2))

/-- Python `s.split(sep)` (unbounded): the list of separator-free parts. -/
def splitOnC (sep : Char) : List Char → List (List Char)
  | [] => [[]]
  | c :: rest =>
    match splitOnC sep rest with
    | [] => [[]]
    | h :: t => if c = sep then [] :: h :: t else (c :: h) :: t

/-! ### `ipaddress.IPv4Address` validation -/

/-- One dotted-quad octet as accepted by `ipaddress.IPv4Address`:
1–3 decimal digits, no leading zero (unless the octet is exactly `0`),
value at most 255. -/
def octetValid (l : List Char) : Bool :=
  !l.isEmpty && l.length ≤ 3 && l.all Char.isDigit &&
    (l.length = 1 || l.head? != some '0') && parseDigits l ≤ 255

/-- Acceptance of a numbers-and-dots string by `ipaddress.IPv4Address`. -/
def ipv4ValidChars (l : List Char) : Bool :=
  let parts := splitOnC '.' l
  parts.length = 4 && parts.all octetValid

/-- String-level IPv4 validity. -/
def ipv4Valid (s : String) : Bool := ipv4ValidChars s.data

/-! ### The `Service` model -/

/-- The `Service` pydantic model: `name`, `labels` (a string-keyed dict,
modelled as an association list), and `addr_port` split into its two
components. -/
structure Service where
  name : String
  labels : List (String × String)
  addr : String
  port : Int
deriving DecidableEq, Repr

/-- The `(ip, port)` tuple `Service.addr_port`. -/
def Service.addr_port (s : Service) : String × Int := (s.addr, s.port)

/-- Model of `Service.serialize_addr_port`: render the tuple as the
string `ip:port`. -/
def serialize_addr_port (v : String × Int) : String :=
  v.1 ++ String.mk (':' :: renderInt v.2)

/-- Model of `Service.parse_addr_port` on a string input: split on the first `:`,
validate the host with `ipaddress.IPv4Address`, parse the port with
`int`. Any failure raises (is `none`). -/
def parse_addr_port (s : String) : Option (String × Int) :=
  (splitFirst ':' s.data).bind fun hr =>
    if ipv4ValidChars hr.1 then (pyIntChars hr.2).map (fun p => (String.mk hr.1, p))
    else none

/-! ### JSON values (result of Python `json.loads` / input to `json.dumps`) -/

/-- A JSON value as produced by `json.loads`. -/
inductive Json where
  | null
  | bool (b : Bool)
  | num (n : Int)
  | str (s : String)
  | arr (elts : List Json)
  | obj (fields : List (String × Json))

/-- Dict key lookup, `data[k]` / `fields.get(k)`. -/
def jsonLookup (fields : List (String × Json)) (k : String) : Option Json :=
  fields.lookup k

/-- Serialisation of the `labels` dict in `model_dump(by_alias=True)`. -/
def labelsToJson (labels : List (String × String)) : Json :=
  .obj (labels.map fun kv => (kv.1, .str kv.2))

/-- Pydantic validation of the `labels` field: every value must be a
string. -/
def labelsFromJsonFields : List (String × Json) → Option (List (String × String))
  | [] => some []
  | (k, .str v) :: rest => (labelsFromJsonFields rest).map (fun r => (k, v) :: r)
  | _ => none

/-- Model of `Service.model_dump(by_alias=True)`: the wire JSON object, with the
address tuple rendered under the alias key `addrPort` as `"ip:port"`. -/
def model_dump (s : Service) : Json :=
  .obj [("name", .str s.name),
        ("labels", labelsToJson s.labels),
        ("addrPort", .str (serialize_addr_port s.addr_port))]

/-- Pydantic validation of a `Service` from a JSON value: `name` must be a
string, `labels` a string-to-string object, and the address tuple is read
from `addrPort` (the alias) or, `populate_by_name` being set, from
`addr_port`, then passed through `parse_addr_port`. -/
def validate_service (j : Json) : Option Service := do
  let fields ← match j with | .obj fs => some fs | _ => none
  let name ← match jsonLookup fields "name" with
    | some (.str n) => some n
    | _ => none
  let labels ← match jsonLookup fields "labels" with
    | some (.obj lfs) => labelsFromJsonFields lfs
    | _ => none
  let ap ← match (jsonLookup fields "addrPort").orElse (fun _ => jsonLookup fields "addr_port") with
    | some (.str s) => some s
    | _ => none
  let hp ← parse_addr_port ap
  pure ⟨name, labels, hp.1, hp.2⟩

/-! ### The local registry (`_RegistryImpl`) -/

/-- Ports of the services in a registry list are pairwise distinct: the
registry's documented invariant. -/
def PortsNodup (l : List Service) : Prop := (l.map Service.port).Nodup

/-- Service construction in `advertise_service`: the pydantic constructor
receives `addr_port=f'{self._addr}:{port}'`, which runs the
`parse_addr_port` validator. A validation failure raises. -/
def make_service (own : String) (port : Int) (name : String)
    (labels : List (String × String)) : Option Service :=
  (parse_addr_port (serialize_addr_port (own, port))).map
    (fun ap => ⟨name, labels, ap.1, ap.2⟩)

/-- The replace-in-place-or-append loop of `advertise_service`: the first
entry whose port equals `port` is overwritten; if none matches, the new
entry is appended. -/
def replaceOrAppend (port : Int) (entry : Service) : List Service → List Service
  | [] => [entry]
  | s :: rest =>
    if s.port = port then entry :: rest else s :: replaceOrAppend port entry rest

/-- Model of `advertise_service`: assert `0 < port < 2**16`, build the
new entry, then replace in place or append. `none` models a raised
exception (failed assert or a validation error), in which case the service
list is not mutated. -/
def advertise_service (own : String) (services : List Service) (port : Int)
    (name : String) (labels : List (String × String)) : Option (List Service) :=
  if 0 < port ∧ port < 2 ^ 16 then
    (make_service own port name labels).map (fun entry => replaceOrAppend port entry services)
  else none

/-- The removal loop of `unlist_service`: pop the first entry whose port
matches; `none` when no entry matches (the source raises `KeyError`). -/
def removeFirstByPort (port : Int) : List Service → Option (List Service)
  | [] => none
  | s :: rest =>
    if s.port = port then some rest
    else (removeFirstByPort port rest).map (fun r => s :: r)

/-- Model of `unlist_service`. -/
def unlist_service (services : List Service) (port : Int) : Option (List Service) :=
  removeFirstByPort port services

/-- A registry call issued by a client. -/
inductive RegOp where
  | advertise (port : Int) (name : String) (labels : List (String × String))
  | unlist (port : Int)

/-- One registry call as a state transformer: when the call raises
(`none`), the service list is left unchanged (the source raises before or
outside any mutation). -/
def registryStep (own : String) (st : List Service) : RegOp → List Service
  | .advertise p n ℓ => (advertise_service own st p n ℓ).getD st
  | .unlist p => (unlist_service st p).getD st

/-- A whole sequence of registry calls starting from a given state. -/
def runOps (own : String) (ops : List RegOp) (st : List Service) : List Service :=
  ops.foldl (registryStep own) st

/-! ### The discovery client (`list_services`, `find_service`) -/

/-- Outcome of one `_get_remote_services(addr, port)` call, as seen by its
caller: a parsed service list, or one of the exceptions the source can
raise (`ConnectionRefusedError`, `TimeoutError`, the minidisc `Error` for
a non-200 status — carrying only the status and reason — or a
JSON-decoding / pydantic-validation error for a malformed body). -/
inductive FetchRes where
  | ok (services : List Service)
  | connRefused
  | timeout
  | badStatus (status : Nat) (reason : String)
  | malformed
deriving DecidableEq

/-- The service list contributed by a successful fetch. -/
def FetchRes.okPart : FetchRes → List Service
  | .ok svcs => svcs
  | _ => []

/-- Errors that `list_services` swallows for a peer: the peer simply does
not run Minidisc. -/
def FetchRes.swallowed : FetchRes → Bool
  | .connRefused => true
  | .timeout => true
  | _ => false

/-- Errors that escape `list_services`: a reachable peer answered with a
non-200 status or a malformed body. -/
def FetchRes.fatal : FetchRes → Bool
  | .badStatus _ _ => true
  | .malformed => true
  | _ => false

/-- The one exception the Leader's `/services` delegate loop catches. -/
def FetchRes.isRefused : FetchRes → Bool
  | .connRefused => true
  | _ => false

/-- Outcomes that make the Leader's `/services` handler itself raise:
everything except a successful fetch and a refused connection. -/
def FetchRes.handlerFatal : FetchRes → Bool
  | .ok _ => false
  | .connRefused => false
  | _ => true

/-- Model of `list_services`: query every tailnet address on port 28004,
accumulating the results; `ConnectionRefusedError` and `TimeoutError` are
caught and the loop continues; any other exception propagates. `env` gives
the outcome of `_get_remote_services` per address and port. -/
def list_services (peers : List String) (env : String → Int → FetchRes) :
    Except FetchRes (List Service) :=
  match peers with
  | [] => .ok []
  | a :: rest =>
    match env a 28004 with
    | .ok svcs => (list_services rest env).map (fun acc => svcs ++ acc)
    | .connRefused => list_services rest env
    | .timeout => list_services rest env
    | e => .error e

/-- Model of the label-subset check: every wanted key must be present with the identical
value; extra labels in `have` are ignored. -/
def labels_match (want hav : List (String × String)) : Bool :=
  want.all (fun kv => hav.lookup kv.1 == some kv.2)

/-- The scan loop of `find_service` over the list of discovered services:
first service matching on exact name and label superset wins. -/
def findFirst (services : List Service) (name : String)
    (labels : List (String × String)) : Option (String × Int) :=
  match services with
  | [] => none
  | s :: rest =>
    if name = s.name ∧ labels_match labels s.labels then some s.addr_port
    else findFirst rest name labels

/-- Model of `find_service(name, labels)`: scan `list_services()`; an exception from
`list_services` propagates. -/
def find_service (peers : List String) (env : String → Int → FetchRes)
    (name : String) (labels : List (String × String)) :
    Except FetchRes (Option (String × Int)) :=
  (list_services peers env).map (fun svcs => findFirst svcs name labels)

/-! ### The node (`_MinidiscNode`) HTTP handlers -/

/-- A delegate registration: the `(addr, port)` pair kept in
`_MinidiscNode._delegates`. -/
abbrev Delegate := String × Int

/-- The delegate loop of the `/services` branch of `_handle_http_get`:
iterate over the request-start copy of the delegates, extending the
accumulated service list on success; on `ConnectionRefusedError` remove
the delegate from the live list (`list.remove`, i.e. erase the first equal
entry) and continue; any other exception propagates out of the handler, so
no response is written (`none`) and the live list keeps the evictions made
so far. -/
def fetchDelegates (fetch : Delegate → FetchRes) :
    List Delegate → List Service → List Delegate → Option (List Service) × List Delegate
  | [], acc, dels => (some acc, dels)
  | d :: rest, acc, dels =>
    match fetch d with
    | .ok svcs => fetchDelegates fetch rest (acc ++ svcs) dels
    | .connRefused => fetchDelegates fetch rest acc (dels.erase d)
    | _ => (none, dels)

/-- The `/services` branch of `_handle_http_get`: start from the registry
snapshot and the request-start copy of `_delegates`, run the delegate
loop, and (unless an exception escaped) answer 200 with the accumulated
list. Returns the response body (if any) and the final delegates list. -/
def handle_services (reg : List Service) (dels : List Delegate)
    (fetch : Delegate → FetchRes) : Option (List Service) × List Delegate :=
  fetchDelegates fetch dels reg dels

/-- The `(addr, port)` pair that the `/add-delegate` body denotes:
`data['addrPort'].split(':', 1)` with `int` applied to the port part.
`none` when any step of that pipeline raises. -/
def postedPair (j : Json) : Option Delegate := do
  let ap ← match j with
    | .obj fs => jsonLookup fs "addrPort"
    | _ => none
  let s ← match ap with
    | .str s => some s
    | _ => none
  let p ← splitFirst ':' s.data
  let port ← pyIntChars p.2
  pure (String.mk p.1, port)

/-- Model of the POST handler on path `/add-delegate`. The argument is the
outcome of `json.loads` on the body (`none` = the body is not valid JSON).
Result: the HTTP status written (`some 400` for malformed JSON, `some 200`
on success, `none` when a later step raises and no response is written)
and the new delegates list. -/
def handle_add_delegate (parsed : Option Json) (dels : List Delegate) :
    Option Nat × List Delegate :=
  match parsed with
  | none => (some 400, dels)
  | some j =>
    match postedPair j with
    | some pr => (some 200, dels ++ [pr])
    | none => (none, dels)

/-- The body `_add_delegate` posts: `{'addrPort': f'{addr}:{port}'}`. -/
def add_delegate_body (addr : String) (port : Int) : Json :=
  .obj [("addrPort", .str (serialize_addr_port (addr, port)))]

/-- Precondition and request body of the delegate registration call: it asserts
`port != 28004` and posts the node's own address with the bound port. -/
def add_delegate (addr : String) (port : Int) : Option Json :=
  if port = 28004 then none else some (add_delegate_body addr port)

/-- The documented invariant on a Leader's delegates list. -/
def DelegatesInv (own : String) (dels : List Delegate) : Prop :=
  ∀ d ∈ dels, d.1 = own ∧ d.2 ≠ 28004

/-! ### Lemmas: decimal rendering and parsing -/

theorem digitChar_isDigit {d : Nat} (h : d < 10) : (digitChar d).isDigit = true := by
  interval_cases d <;> decide

theorem digitChar_toNat {d : Nat} (h : d < 10) : (digitChar d).toNat - 48 = d := by
  interval_cases d <;> decide

theorem isDigit_ne_dash {c : Char} (h : c.isDigit = true) : c ≠ '-' := by
  intro he; subst he; simp at h

theorem parseDigits_snoc (a : List Char) (c : Char) :
    parseDigits (a ++ [c]) = 10 * parseDigits a + (c.toNat - 48) := by
  simp [parseDigits, List.foldl_append]

theorem renderNatCore_spec :
    ∀ fuel n, n < fuel →
      parseDigits (renderNatCore fuel n) = n ∧
      (renderNatCore fuel n).all Char.isDigit = true ∧
      renderNatCore fuel n ≠ [] := by
  intro fuel
  induction fuel with
  | zero => intro n h; omega
  | succ fuel ih =>
    intro n h
    by_cases h10 : n < 10
    · simp only [renderNatCore, if_pos h10]
      refine ⟨?_, ?_, by simp⟩
      · simpa [parseDigits] using digitChar_toNat h10
      · simp [digitChar_isDigit h10]
    · have hn : 0 < n := by omega
      have hdiv : n / 10 < n := Nat.div_lt_self hn (by omega)
      have hfuel : n / 10 < fuel := by omega
      obtain ⟨hp, hall, hne⟩ := ih (n / 10) hfuel
      simp only [renderNatCore, if_neg h10]
      refine ⟨?_, ?_, by simp⟩
      · rw [parseDigits_snoc, hp, digitChar_toNat (Nat.mod_lt n (by omega))]
        omega
      · simp only [List.all_append, hall, Bool.true_and, List.all_cons, List.all_nil,
          Bool.and_true]
        exact digitChar_isDigit (Nat.mod_lt n (by omega))

theorem renderNatChars_spec (n : Nat) :
    parseDigits (renderNatChars n) = n ∧
    (renderNatChars n).all Char.isDigit = true ∧
    renderNatChars n ≠ [] :=
  renderNatCore_spec (n + 1) n (Nat.lt_succ_self n)

theorem pyIntChars_renderNatChars (n : Nat) :
    pyIntChars (renderNatChars n) = some (n : Int) := by
  obtain ⟨hp, hall, hne⟩ := renderNatChars_spec n
  rcases he : renderNatChars n with _ | ⟨c, cs⟩
  · exact absurd he hne
  · rw [he] at hp hall
    have hc : c.isDigit = true := by
      have := List.all_eq_true.mp hall c (by simp)
      exact this
    rw [pyIntChars, if_neg (isDigit_ne_dash hc), if_pos hall, hp]

theorem pyIntChars_renderInt {i : Int} (h : 0 ≤ i) :
    pyIntChars (renderInt i) = some i := by
  rw [renderInt, if_neg (by omega)]
  rw [pyIntChars_renderNatChars]
  congr 1
  exact Int.toNat_of_nonneg h

theorem pyIntChars_of_colon_mem {l : List Char} (h : ':' ∈ l) :
    pyIntChars l = none := by
  rcases l with _ | ⟨c, rest⟩
  · simp at h
  · rw [pyIntChars]
    by_cases hc : c = '-'
    · subst hc
      have hrest : ':' ∈ rest := by
        rcases List.mem_cons.mp h with h' | h'
        · exact absurd h'.symm (by decide)
        · exact h'
      have hall : rest.all Char.isDigit = false := by
        by_contra hx
        have := List.all_eq_true.mp (Bool.of_not_eq_false hx) ':' hrest
        simp at this
      simp [hall]
    · have hall : (c :: rest).all Char.isDigit = false := by
        by_contra hx
        have := List.all_eq_true.mp (Bool.of_not_eq_false hx) ':' h
        simp at this
      simp [if_neg hc, hall]

/-! ### Lemmas: splitting -/

theorem splitFirst_append_of_not_mem (sep : Char) (b : List Char) :
    ∀ a : List Char, sep ∉ a → splitFirst sep (a ++ sep :: b) = some (a, b) := by
  intro a
  induction a with
  | nil => intro _; simp [splitFirst]
  | cons c rest ih =>
    intro h
    have hc : c ≠ sep := fun he => h (he ▸ List.mem_cons_self c rest)
    have hrest : sep ∉ rest := fun hm => h (List.mem_cons_of_mem c hm)
    simp only [List.cons_append, splitFirst, if_neg hc, List.append_eq, ih hrest]
    rfl

theorem splitFirst_append_cases (sep : Char) (b : List Char) :
    ∀ a : List Char, ∃ h r,
      splitFirst sep (a ++ sep :: b) = some (h, r) ∧ (r = b ∨ sep ∈ r) := by
  intro a
  induction a with
  | nil => exact ⟨[], b, by simp [splitFirst], Or.inl rfl⟩
  | cons c rest ih =>
    by_cases hc : c = sep
    · subst hc
      exact ⟨[], rest ++ c :: b, by simp [splitFirst], Or.inr (by simp)⟩
    · obtain ⟨h, r, he, hr⟩ := ih
      exact ⟨c :: h, r, by simp [splitFirst, if_neg hc, he], hr⟩

theorem splitOnC_ne_nil (sep : Char) : ∀ l : List Char, splitOnC sep l ≠ [] := by
  intro l
  induction l with
  | nil => simp [splitOnC]
  | cons c rest ih =>
    rcases he : splitOnC sep rest with _ | ⟨h, t⟩
    · exact absurd he ih
    · by_cases hc : c = sep <;> simp [splitOnC, he, hc]

theorem exists_mem_splitOnC (sep : Char) :
    ∀ (l : List Char) (c : Char), c ∈ l → c ≠ sep →
      ∃ part, part ∈ splitOnC sep l ∧ c ∈ part := by
  intro l
  induction l with
  | nil => intro c hc; simp at hc
  | cons d rest ih =>
    intro c hc hne
    rcases he : splitOnC sep rest with _ | ⟨h, t⟩
    · exact absurd he (splitOnC_ne_nil sep rest)
    · rcases List.mem_cons.mp hc with hcd | hcrest
      · subst hcd
        have hd : ¬(c = sep) := hne
        refine ⟨c :: h, ?_, by simp⟩
        simp [splitOnC, he, if_neg hd]
      · obtain ⟨part, hpm, hcp⟩ := ih c hcrest hne
        rw [he] at hpm
        by_cases hd : d = sep
        · exact ⟨part, by simp [splitOnC, he, if_pos hd]; right; exact List.mem_cons.mp hpm |>.elim (fun h' => Or.inl h') Or.inr, hcp⟩
        · rcases List.mem_cons.mp hpm with hph | hpt
          · subst hph
            exact ⟨d :: part, by simp [splitOnC, he, if_neg hd], List.mem_cons_of_mem d hcp⟩
          · exact ⟨part, by simp [splitOnC, he, if_neg hd]; right; exact hpt, hcp⟩

/-! ### Lemmas: IPv4 strings contain no colon -/

theorem colon_not_mem_of_ipv4Valid {l : List Char} (h : ipv4ValidChars l = true) :
    ':' ∉ l := by
  intro hm
  obtain ⟨part, hpm, hcp⟩ := exists_mem_splitOnC '.' l ':' hm (by decide)
  rw [ipv4ValidChars] at h
  simp only [Bool.and_eq_true, decide_eq_true_eq] at h
  have hoct : octetValid part = true := List.all_eq_true.mp h.2 part hpm
  rw [octetValid] at hoct
  simp only [Bool.and_eq_true] at hoct
  have hdig := List.all_eq_true.mp hoct.1.1.2 ':' hcp
  simp at hdig

/-! ### Lemmas: the wire round-trip of an address-port pair -/

theorem data_serialize_addr_port (own : String) (p : Int) :
    (serialize_addr_port (own, p)).data = own.data ++ ':' :: renderInt p := by
  simp [serialize_addr_port, String.data_append]

theorem parse_serialize {own : String} {p : Int}
    (hv : ipv4Valid own = true) (hp : 0 ≤ p) :
    parse_addr_port (serialize_addr_port (own, p)) = some (own, p) := by
  have hnc : ':' ∉ own.data := colon_not_mem_of_ipv4Valid hv
  have hv' : ipv4ValidChars own.data = true := hv
  have hmk : String.mk own.data = own := by cases own; rfl
  simp only [parse_addr_port, data_serialize_addr_port,
    splitFirst_append_of_not_mem ':' (renderInt p) own.data hnc, Option.some_bind,
    hv', if_true, pyIntChars_renderInt hp, hmk]
  rfl

theorem parse_serialize_inv {own : String} {p : Int} {ap : String × Int}
    (h : parse_addr_port (serialize_addr_port (own, p)) = some ap) (hp : 0 ≤ p) :
    ap.2 = p := by
  obtain ⟨hd, r, he, hr⟩ := splitFirst_append_cases ':' (renderInt p) own.data
  rw [parse_addr_port, data_serialize_addr_port, he, Option.some_bind] at h
  by_cases hv : ipv4ValidChars hd = true
  · rw [if_pos hv] at h
    rcases hr with hr | hr
    · subst hr
      rw [pyIntChars_renderInt hp] at h
      have h' : ((String.mk hd, p) : String × Int) = ap := by simpa using h
      rw [← h']
    · rw [pyIntChars_of_colon_mem hr] at h
      exact absurd h (by simp)
  · rw [if_neg hv] at h
    exact absurd h (by simp)

/-! ### Lemmas: the registry -/

theorem mem_ports_replaceOrAppend {q : Int} {p : Int} {e : Service} :
    ∀ {l : List Service}, q ∈ (replaceOrAppend p e l).map Service.port →
      q = e.port ∨ q ∈ l.map Service.port := by
  intro l
  induction l with
  | nil => intro h; simp [replaceOrAppend] at h; exact Or.inl h
  | cons s rest ih =>
    intro h
    by_cases hs : s.port = p
    · rw [replaceOrAppend, if_pos hs, List.map_cons] at h
      rcases List.mem_cons.mp h with h' | h'
      · exact Or.inl h'
      · exact Or.inr (by rw [List.map_cons]; exact List.mem_cons_of_mem _ h')
    · rw [replaceOrAppend, if_neg hs, List.map_cons] at h
      rcases List.mem_cons.mp h with h' | h'
      · exact Or.inr (by rw [List.map_cons]; exact h' ▸ List.mem_cons_self _ _)
      · rcases ih h' with h'' | h''
        · exact Or.inl h''
        · exact Or.inr (by rw [List.map_cons]; exact List.mem_cons_of_mem _ h'')

theorem replaceOrAppend_nodup {p : Int} {e : Service} (he : e.port = p) :
    ∀ {l : List Service}, PortsNodup l → PortsNodup (replaceOrAppend p e l) := by
  intro l
  induction l with
  | nil => intro _; simp [replaceOrAppend, PortsNodup]
  | cons s rest ih =>
    intro hinv
    have hinv' : PortsNodup rest := (List.nodup_cons.mp hinv).2
    have hhead : s.port ∉ rest.map Service.port := (List.nodup_cons.mp hinv).1
    by_cases hs : s.port = p
    · rw [replaceOrAppend, if_pos hs]
      refine List.nodup_cons.mpr ⟨?_, hinv'⟩
      rw [he, ← hs]; exact hhead
    · rw [replaceOrAppend, if_neg hs]
      refine List.nodup_cons.mpr ⟨?_, ih hinv'⟩
      intro hmem
      rcases mem_ports_replaceOrAppend hmem with h' | h'
      · exact hs (h'.trans he)
      · exact hhead h'

theorem replaceOrAppend_of_not_mem {p : Int} {e : Service} :
    ∀ {l : List Service}, (∀ s ∈ l, s.port ≠ p) → replaceOrAppend p e l = l ++ [e] := by
  intro l
  induction l with
  | nil => intro _; rfl
  | cons s rest ih =>
    intro h
    rw [replaceOrAppend, if_neg (h s (by simp)), ih (fun t ht => h t (by simp [ht]))]
    rfl

theorem replaceOrAppend_set {p : Int} {e : Service} :
    ∀ {l : List Service} {i : Nat} {s : Service}, PortsNodup l →
      l.get? i = some s → s.port = p → replaceOrAppend p e l = l.set i e := by
  intro l
  induction l with
  | nil => intro i s _ h; simp at h
  | cons t rest ih =>
    intro i s hinv hi hsp
    have hinv' : PortsNodup rest := (List.nodup_cons.mp hinv).2
    have hhead : t.port ∉ rest.map Service.port := (List.nodup_cons.mp hinv).1
    match i with
    | 0 =>
      have ht : t = s := by simpa using hi
      subst ht
      rw [replaceOrAppend, if_pos hsp]
      rfl
    | i + 1 =>
      have hi' : rest.get? i = some s := by simpa using hi
      have hsm : s ∈ rest := List.get?_mem hi'
      have htp : t.port ≠ p := by
        intro he
        exact hhead (by
          rw [he, ← hsp]
          exact List.mem_map_of_mem Service.port hsm)
      rw [replaceOrAppend, if_neg htp, ih hinv' hi' hsp]
      rfl

theorem ports_filter_eq_nil {p : Int} {l : List Service}
    (h : p ∉ l.map Service.port) :
    l.filter (fun s => s.port == p) = [] := by
  rw [List.filter_eq_nil_iff]
  intro s hs
  simp only [beq_iff_eq]
  intro he
  exact h (he ▸ List.mem_map_of_mem Service.port hs)

theorem replaceOrAppend_filter {p : Int} {e : Service} (he : e.port = p) :
    ∀ {l : List Service}, PortsNodup l →
      (replaceOrAppend p e l).filter (fun s => s.port == p) = [e] := by
  intro l
  induction l with
  | nil => intro _; simp [replaceOrAppend, List.filter, he]
  | cons s rest ih =>
    intro hinv
    have hinv' : PortsNodup rest := (List.nodup_cons.mp hinv).2
    have hhead : s.port ∉ rest.map Service.port := (List.nodup_cons.mp hinv).1
    by_cases hs : s.port = p
    · rw [replaceOrAppend, if_pos hs]
      rw [List.filter_cons_of_pos (by simp [he])]
      rw [ports_filter_eq_nil (hs ▸ hhead)]
    · rw [replaceOrAppend, if_neg hs]
      rw [List.filter_cons_of_neg (by simp [hs]), ih hinv']

theorem removeFirstByPort_of_not_mem {p : Int} :
    ∀ {l : List Service}, (∀ s ∈ l, s.port ≠ p) → removeFirstByPort p l = none := by
  intro l
  induction l with
  | nil => intro _; rfl
  | cons s rest ih =>
    intro h
    rw [removeFirstByPort, if_neg (h s (by simp)), ih (fun t ht => h t (by simp [ht]))]
    rfl

theorem removeFirstByPort_eq_filter {p : Int} :
    ∀ {l : List Service}, PortsNodup l → ∀ s ∈ l, s.port = p →
      removeFirstByPort p l = some (l.filter (fun t => !(t.port == p))) := by
  intro l
  induction l with
  | nil => intro _ s hs; simp at hs
  | cons t rest ih =>
    intro hinv s hs hsp
    have hinv' : PortsNodup rest := (List.nodup_cons.mp hinv).2
    have hhead : t.port ∉ rest.map Service.port := (List.nodup_cons.mp hinv).1
    by_cases ht : t.port = p
    · rw [removeFirstByPort, if_pos ht]
      rw [List.filter_cons_of_neg (by simp [ht])]
      have : rest.filter (fun u => !(u.port == p)) = rest := by
        rw [List.filter_eq_self]
        intro u hu
        simp only [Bool.not_eq_eq_eq_not, Bool.not_true, beq_eq_false_iff_ne]
        intro he
        exact hhead (ht ▸ he ▸ List.mem_map_of_mem Service.port hu)
      rw [this]
    · have hsrest : s ∈ rest := by
        rcases List.mem_cons.mp hs with h' | h'
        · exact absurd (h' ▸ hsp) ht
        · exact h'
      rw [removeFirstByPort, if_neg ht, ih hinv' s hsrest hsp,
        List.filter_cons_of_pos (by simp [ht])]
      rfl

theorem removeFirstByPort_sublist {p : Int} :
    ∀ {l l' : List Service}, removeFirstByPort p l = some l' → List.Sublist l' l := by
  intro l
  induction l with
  | nil => intro l' h; simp [removeFirstByPort] at h
  | cons s rest ih =>
    intro l' h
    by_cases hs : s.port = p
    · rw [removeFirstByPort, if_pos hs] at h
      cases h
      exact List.sublist_cons_self s rest
    · rw [removeFirstByPort, if_neg hs] at h
      rcases hr : removeFirstByPort p rest with _ | r
      · rw [hr] at h; exact absurd h (by simp)
      · rw [hr] at h
        have : l' = s :: r := by simpa using h.symm
        subst this
        exact (ih hr).cons₂ s

theorem advertise_success_shape {own : String} {st st' : List Service} {p : Int}
    {n : String} {ℓ : List (String × String)}
    (h : advertise_service own st p n ℓ = some st') :
    ∃ e : Service, e.port = p ∧ st' = replaceOrAppend p e st := by
  rw [advertise_service] at h
  by_cases hc : 0 < p ∧ p < 2 ^ 16
  · rw [if_pos hc] at h
    rcases hm : make_service own p n ℓ with _ | e
    · rw [hm] at h; exact absurd h (by simp)
    · rw [hm] at h
      refine ⟨e, ?_, by simpa using h.symm⟩
      rw [make_service] at hm
      rcases hp : parse_addr_port (serialize_addr_port (own, p)) with _ | ap
      · rw [hp] at hm; exact absurd hm (by simp)
      · rw [hp] at hm
        have he : e = ⟨n, ℓ, ap.1, ap.2⟩ := by simpa using hm.symm
        have := parse_serialize_inv hp (le_of_lt hc.1)
        rw [he]
        exact this
  · rw [if_neg hc] at h
    exact absurd h (by simp)

theorem registryStep_preserves {own : String} {st : List Service}
    (hinv : PortsNodup st) : ∀ op, PortsNodup (registryStep own st op) := by
  intro op
  cases op with
  | advertise p n ℓ =>
    rcases h : advertise_service own st p n ℓ with _ | st'
    · simpa [registryStep, h] using hinv
    · obtain ⟨e, hep, hst⟩ := advertise_success_shape h
      simp only [registryStep, h, Option.getD_some]
      rw [hst]
      exact replaceOrAppend_nodup hep hinv
  | unlist p =>
    rcases h : unlist_service st p with _ | st'
    · simpa [registryStep, h] using hinv
    · simp only [registryStep, h, Option.getD_some]
      have hsub := removeFirstByPort_sublist (p := p) (l := st) h
      exact hinv.sublist (hsub.map Service.port)

theorem runOps_preserves (own : String) :
    ∀ (ops : List RegOp) (st : List Service), PortsNodup st →
      PortsNodup (runOps own ops st) := by
  intro ops
  induction ops with
  | nil => intro st h; exact h
  | cons op rest ih =>
    intro st h
    exact ih (registryStep own st op) (registryStep_preserves h op)

/-! ### Lemmas: the discovery client -/

theorem findFirst_isSome_iff (n : String) (ℓ : List (String × String)) :
    ∀ svcs : List Service,
      (findFirst svcs n ℓ).isSome = true ↔
        ∃ s ∈ svcs, n = s.name ∧ labels_match ℓ s.labels = true := by
  intro svcs
  induction svcs with
  | nil => simp [findFirst]
  | cons s rest ih =>
    by_cases hc : n = s.name ∧ labels_match ℓ s.labels = true
    · rw [findFirst, if_pos hc]
      simp only [Option.isSome_some, true_iff]
      exact ⟨s, by simp, hc⟩
    · rw [findFirst, if_neg hc]
      rw [ih]
      constructor
      · rintro ⟨t, ht, hm⟩
        exact ⟨t, List.mem_cons_of_mem s ht, hm⟩
      · rintro ⟨t, ht, hm⟩
        rcases List.mem_cons.mp ht with h' | h'
        · exact absurd (h' ▸ hm) hc
        · exact ⟨t, h', hm⟩

theorem findFirst_eq_some (n : String) (ℓ : List (String × String)) :
    ∀ (svcs : List Service) (ap : String × Int), findFirst svcs n ℓ = some ap →
      ∃ i s, svcs.get? i = some s ∧ n = s.name ∧ labels_match ℓ s.labels = true ∧
        ap = s.addr_port ∧
        ∀ j t, j < i → svcs.get? j = some t →
          ¬(n = t.name ∧ labels_match ℓ t.labels = true) := by
  intro svcs
  induction svcs with
  | nil => intro ap h; simp [findFirst] at h
  | cons s rest ih =>
    intro ap h
    by_cases hc : n = s.name ∧ labels_match ℓ s.labels = true
    · rw [findFirst, if_pos hc] at h
      refine ⟨0, s, rfl, hc.1, hc.2, by simpa using h.symm, ?_⟩
      intro j t hj _
      omega
    · rw [findFirst, if_neg hc] at h
      obtain ⟨i, t, hit, hn, hm, hap, hfirst⟩ := ih ap h
      refine ⟨i + 1, t, by simpa using hit, hn, hm, hap, ?_⟩
      intro j u hj hu
      match j with
      | 0 =>
        have hsu : s = u := by simpa using hu
        exact hsu ▸ hc
      | j + 1 =>
        exact hfirst j u (by omega) (by simpa using hu)

theorem list_services_all_benign (env : String → Int → FetchRes) :
    ∀ peers : List String, (∀ a ∈ peers, (env a 28004).fatal = false) →
      list_services peers env =
        .ok ((peers.map (fun a => (env a 28004).okPart)).flatten) := by
  intro peers
  induction peers with
  | nil => intro _; simp [list_services]
  | cons a rest ih =>
    intro h
    have hrest : ∀ b ∈ rest, (env b 28004).fatal = false :=
      fun b hb => h b (List.mem_cons_of_mem a hb)
    have ha := h a (by simp)
    rcases he : env a 28004 with ⟨svcs⟩ | _ | _ | ⟨st, r⟩ | _
    · simp [list_services, he, ih hrest, Except.map, FetchRes.okPart]
    · simp [list_services, he, ih hrest, FetchRes.okPart]
    · simp [list_services, he, ih hrest, FetchRes.okPart]
    · rw [he] at ha; simp [FetchRes.fatal] at ha
    · rw [he] at ha; simp [FetchRes.fatal] at ha

theorem list_services_fatal (env : String → Int → FetchRes) :
    ∀ (peers : List String) (a : String), a ∈ peers →
      (env a 28004).fatal = true →
      ∃ e, list_services peers env = .error e ∧ e.fatal = true := by
  intro peers
  induction peers with
  | nil => intro a ha; simp at ha
  | cons b rest ih =>
    intro a ha hf
    rcases he : env b 28004 with ⟨svcs⟩ | _ | _ | ⟨st, r⟩ | _
    · have harest : a ∈ rest := by
        rcases List.mem_cons.mp ha with h' | h'
        · rw [h', he] at hf; simp [FetchRes.fatal] at hf
        · exact h'
      obtain ⟨e, hee, hef⟩ := ih a harest hf
      exact ⟨e, by simp [list_services, he, hee, Except.map], hef⟩
    · have harest : a ∈ rest := by
        rcases List.mem_cons.mp ha with h' | h'
        · rw [h', he] at hf; simp [FetchRes.fatal] at hf
        · exact h'
      obtain ⟨e, hee, hef⟩ := ih a harest hf
      exact ⟨e, by simp [list_services, he, hee], hef⟩
    · have harest : a ∈ rest := by
        rcases List.mem_cons.mp ha with h' | h'
        · rw [h', he] at hf; simp [FetchRes.fatal] at hf
        · exact h'
      obtain ⟨e, hee, hef⟩ := ih a harest hf
      exact ⟨e, by simp [list_services, he, hee], hef⟩
    · exact ⟨.badStatus st r, by simp [list_services, he], by simp [FetchRes.fatal]⟩
    · exact ⟨.malformed, by simp [list_services, he], by simp [FetchRes.fatal]⟩

/-! ### Lemmas: the Leader's `/services` delegate loop -/

theorem fetchDelegates_benign (fetch : Delegate → FetchRes) :
    ∀ (l pre : List Delegate) (acc : List Service),
      (∀ d ∈ l, (fetch d).handlerFatal = false) →
      (∀ d ∈ pre, (fetch d).isRefused = false) →
      fetchDelegates fetch l acc (pre ++ l) =
        (some (acc ++ (l.map (fun d => (fetch d).okPart)).flatten),
         pre ++ l.filter (fun d => !(fetch d).isRefused)) := by
  intro l
  induction l with
  | nil => intro pre acc _ _; simp [fetchDelegates]
  | cons d rest ih =>
    intro pre acc hl hpre
    have hd := hl d (by simp)
    have hrest : ∀ x ∈ rest, (fetch x).handlerFatal = false :=
      fun x hx => hl x (List.mem_cons_of_mem d hx)
    rcases he : fetch d with ⟨svcs⟩ | _ | _ | ⟨st, r⟩ | _
    · have hpre' : ∀ x ∈ pre ++ [d], (fetch x).isRefused = false := by
        intro x hx
        rcases List.mem_append.mp hx with h' | h'
        · exact hpre x h'
        · have : x = d := by simpa using h'
          rw [this, he]; rfl
      have := ih (pre ++ [d]) (acc ++ svcs) hrest hpre'
      rw [List.append_assoc, List.singleton_append] at this
      simp only [fetchDelegates, he, this]
      rw [List.filter_cons_of_pos (by rw [he]; rfl)]
      simp [FetchRes.okPart, he]
    · have herase : (pre ++ d :: rest).erase d = pre ++ rest := by
        have hdpre : d ∉ pre := by
          intro hm
          have := hpre d hm
          rw [he] at this
          simp [FetchRes.isRefused] at this
        rw [List.erase_append_right _ hdpre, List.erase_cons_head]
      simp only [fetchDelegates, he, herase, ih pre acc hrest hpre]
      rw [List.filter_cons_of_neg (by rw [he]; decide)]
      simp [FetchRes.okPart, he]
    · rw [he] at hd; simp [FetchRes.handlerFatal] at hd
    · rw [he] at hd; simp [FetchRes.handlerFatal] at hd
    · rw [he] at hd; simp [FetchRes.handlerFatal] at hd

theorem fetchDelegates_fatal_none (fetch : Delegate → FetchRes) :
    ∀ (l : List Delegate) (acc : List Service) (cur : List Delegate),
      (∃ d ∈ l, (fetch d).handlerFatal = true) →
      (fetchDelegates fetch l acc cur).1 = none := by
  intro l
  induction l with
  | nil => rintro acc cur ⟨d, hd, _⟩; simp at hd
  | cons d rest ih =>
    rintro acc cur ⟨w, hw, hwf⟩
    rcases he : fetch d with ⟨svcs⟩ | _ | _ | ⟨st, r⟩ | _
    · have hwrest : w ∈ rest := by
        rcases List.mem_cons.mp hw with h' | h'
        · rw [h', he] at hwf; simp [FetchRes.handlerFatal] at hwf
        · exact h'
      simpa [fetchDelegates, he] using ih (acc ++ svcs) cur ⟨w, hwrest, hwf⟩
    · have hwrest : w ∈ rest := by
        rcases List.mem_cons.mp hw with h' | h'
        · rw [h', he] at hwf; simp [FetchRes.handlerFatal] at hwf
        · exact h'
      simpa [fetchDelegates, he] using ih acc (cur.erase d) ⟨w, hwrest, hwf⟩
    · simp [fetchDelegates, he]
    · simp [fetchDelegates, he]
    · simp [fetchDelegates, he]

theorem fetchDelegates_keeps (fetch : Delegate → FetchRes) :
    ∀ (l : List Delegate) (acc : List Service) (cur : List Delegate) (d : Delegate),
      (fetch d).isRefused = false → d ∈ cur →
      d ∈ (fetchDelegates fetch l acc cur).2 := by
  intro l
  induction l with
  | nil => intro acc cur d _ hd; simpa [fetchDelegates] using hd
  | cons x rest ih =>
    intro acc cur d hdr hd
    rcases he : fetch x with ⟨svcs⟩ | _ | _ | ⟨st, r⟩ | _
    · simpa [fetchDelegates, he] using ih (acc ++ svcs) cur d hdr hd
    · have hne : d ≠ x := by
        intro hdx
        rw [hdx, he] at hdr
        simp [FetchRes.isRefused] at hdr
      have : d ∈ cur.erase x := (List.mem_erase_of_ne hne).mpr hd
      simpa [fetchDelegates, he] using ih acc (cur.erase x) d hdr this
    · simpa [fetchDelegates, he] using hd
    · simpa [fetchDelegates, he] using hd
    · simpa [fetchDelegates, he] using hd

theorem fetchDelegates_snd_subset (fetch : Delegate → FetchRes) :
    ∀ (l : List Delegate) (acc : List Service) (cur : List Delegate) (d : Delegate),
      d ∈ (fetchDelegates fetch l acc cur).2 → d ∈ cur := by
  intro l
  induction l with
  | nil => intro acc cur d hd; simpa [fetchDelegates] using hd
  | cons x rest ih =>
    intro acc cur d hd
    rcases he : fetch x with ⟨svcs⟩ | _ | _ | ⟨st, r⟩ | _
    · exact ih (acc ++ svcs) cur d (by simpa [fetchDelegates, he] using hd)
    · exact List.mem_of_mem_erase (ih acc (cur.erase x) d (by simpa [fetchDelegates, he] using hd))
    · simpa [fetchDelegates, he] using hd
    · simpa [fetchDelegates, he] using hd
    · simpa [fetchDelegates, he] using hd

/-! ### Lemmas: JSON labels and the posted delegate pair -/

theorem labels_round_trip :
    ∀ ls : List (String × String),
      labelsFromJsonFields (ls.map (fun kv => (kv.1, Json.str kv.2))) = some ls := by
  intro ls
  induction ls with
  | nil => rfl
  | cons kv rest ih => simp [labelsFromJsonFields, ih]

theorem postedPair_obj {fs : List (String × Json)} {s : String} {a r : List Char}
    {p : Int} (h1 : jsonLookup fs "addrPort" = some (.str s))
    (h2 : splitFirst ':' s.data = some (a, r)) (h3 : pyIntChars r = some p) :
    postedPair (.obj fs) = some (String.mk a, p) := by
  simp [postedPair, h1, h2, h3]

theorem postedPair_add_delegate_body {addr : String} {port : Int}
    (hnc : ':' ∉ addr.data) (hp : 0 ≤ port) :
    postedPair (add_delegate_body addr port) = some (addr, port) := by
  have hmk : String.mk addr.data = addr := by cases addr; rfl
  have hs : splitFirst ':' (serialize_addr_port (addr, port)).data
      = some (addr.data, renderInt port) := by
    rw [data_serialize_addr_port]
    exact splitFirst_append_of_not_mem ':' (renderInt port) addr.data hnc
  have hlk : jsonLookup [("addrPort", Json.str (serialize_addr_port (addr, port)))] "addrPort"
      = some (.str (serialize_addr_port (addr, port))) := by
    simp [jsonLookup, List.lookup]
  rw [add_delegate_body]
  rw [postedPair_obj hlk hs (pyIntChars_renderInt hp), hmk]

/-! ### The claims -/

/-- Claim C1, counterexample. The claim says a delegate fetch error other
than connection refused (e.g. a timeout) is non-fatal and the handler
still responds 200. In the source only `ConnectionRefusedError` is caught;
a `TimeoutError` propagates out of `_handle_http_get`, so no response is
written at all: on registry `[]`, delegates `[("1.2.3.4", 5000)]` and a
fetch that times out, the response component is `none` (and the delegate
does stay registered). -/
theorem claim1_counterexample :
    (handle_services [] [("1.2.3.4", 5000)] (fun _ => FetchRes.timeout)).1 = none ∧
    ("1.2.3.4", (5000 : Int)) ∈
      (handle_services [] [("1.2.3.4", 5000)] (fun _ => FetchRes.timeout)).2 :=
  ⟨by decide, by decide⟩

/-- Claim C1, amended. The Leader's `/services` handler returns the union
of the registry snapshot and the fetches of the delegates registered at
request start, evicting (only) delegates whose fetch raises connection
refused; any other fetch error (timeout, bad status, malformed response)
propagates out of the handler, so no response is written, the erring
delegate stays registered, and evictions performed earlier in the same
request persist. Precisely: (1) when no delegate fetch raises a
non-refused error, the handler responds with the snapshot followed by the
successful fetches in delegate order, and the delegates list keeps exactly
the non-refused entries; (2) when some delegate fetch raises a
non-refused error, no response is written; (3) every delegate whose fetch
is not connection-refused is still registered afterwards. -/
theorem claim1_amended_services_handler (reg : List Service)
    (dels : List Delegate) (fetch : Delegate → FetchRes) :
    ((∀ d ∈ dels, (fetch d).handlerFatal = false) →
      handle_services reg dels fetch =
        (some (reg ++ (dels.map (fun d => (fetch d).okPart)).flatten),
         dels.filter (fun d => !(fetch d).isRefused))) ∧
    ((∃ d ∈ dels, (fetch d).handlerFatal = true) →
      (handle_services reg dels fetch).1 = none) ∧
    (∀ d ∈ dels, (fetch d).isRefused = false →
      d ∈ (handle_services reg dels fetch).2) := by
  refine ⟨?_, ?_, ?_⟩
  · intro h
    have := fetchDelegates_benign fetch dels [] reg h (by simp)
    simpa [handle_services] using this
  · intro h
    rw [handle_services]
    exact fetchDelegates_fatal_none fetch dels reg dels h
  · intro d hd hdr
    rw [handle_services]
    exact fetchDelegates_keeps fetch dels reg dels d hdr hd

/-- Claim C1, amended: witness at concrete inputs. A refused delegate is
evicted while the request still answers 200, and a delegate whose fetch
succeeds stays registered. -/
theorem claim1_amended_services_handler_witness :
    handle_services [] [("1.2.3.4", 5000)] (fun _ => FetchRes.connRefused)
      = (some [], []) ∧
    ("1.2.3.4", (6000 : Int)) ∈
      (handle_services [] [("1.2.3.4", 6000)] (fun _ => FetchRes.ok [])).2 := by
  constructor
  · exact ((claim1_amended_services_handler [] [("1.2.3.4", 5000)]
      (fun _ => FetchRes.connRefused)).1 (by decide)).trans (by decide)
  · exact (claim1_amended_services_handler [] [("1.2.3.4", 6000)]
      (fun _ => FetchRes.ok [])).2.2 ("1.2.3.4", 6000) (by decide) (by decide)

/-- Claim C2. Under the precondition `0 < port < 65536` (and the node's
own address being a valid IPv4 string, which `start_registry` guarantees),
`advertise_service` raises no error, and the resulting registry contains
exactly one entry with that port, carrying exactly the requested name and
labels; an existing entry with the port is replaced in place, otherwise
the new entry is appended. -/
theorem claim2_advertise (own n : String) (ℓ : List (String × String))
    (p : Int) (svcs : List Service) (hv : ipv4Valid own = true)
    (h1 : 0 < p) (h2 : p < 65536) (hinv : PortsNodup svcs) :
    ∃ svcs', advertise_service own svcs p n ℓ = some svcs' ∧
      svcs'.filter (fun s => s.port == p) = [⟨n, ℓ, own, p⟩] ∧
      ((∀ s ∈ svcs, s.port ≠ p) → svcs' = svcs ++ [⟨n, ℓ, own, p⟩]) ∧
      (∀ i s, svcs.get? i = some s → s.port = p →
        svcs' = svcs.set i ⟨n, ℓ, own, p⟩) := by
  have h216 : (2 : Int) ^ 16 = 65536 := by norm_num
  have hcond : 0 < p ∧ p < 2 ^ 16 := ⟨h1, by omega⟩
  have hmk : make_service own p n ℓ = some ⟨n, ℓ, own, p⟩ := by
    rw [make_service, parse_serialize hv (le_of_lt h1)]; rfl
  refine ⟨replaceOrAppend p ⟨n, ℓ, own, p⟩ svcs, ?_, ?_, ?_, ?_⟩
  · rw [advertise_service, if_pos hcond, hmk]; rfl
  · exact @replaceOrAppend_filter p ⟨n, ℓ, own, p⟩ rfl svcs hinv
  · intro h
    exact replaceOrAppend_of_not_mem h
  · intro i s hi hsp
    exact replaceOrAppend_set hinv hi hsp

/-- Claim C2: witness. Advertising port 42 on an empty registry from a
valid own address yields exactly one entry with port 42. -/
theorem claim2_advertise_witness :
    ∃ svcs', advertise_service "1.2.3.4" [] 42 "svc" [] = some svcs' ∧
      svcs'.filter (fun s => s.port == 42) = [⟨"svc", [], "1.2.3.4", 42⟩] ∧
      ((∀ s ∈ ([] : List Service), s.port ≠ 42) →
        svcs' = [] ++ [⟨"svc", [], "1.2.3.4", 42⟩]) ∧
      (∀ i s, ([] : List Service).get? i = some s → s.port = 42 →
        svcs' = ([] : List Service).set i ⟨"svc", [], "1.2.3.4", 42⟩) :=
  claim2_advertise "1.2.3.4" "svc" [] 42 [] (by decide) (by decide)
    (by decide) (by simp [PortsNodup])

/-- Claim C3. The scan of `find_service` over the discovered service list
returns a match iff some discovered service has exactly the requested
name and its label map contains every requested key with the identical
value (extra labels ignored); the returned pair is the `addr_port` of the
first such match in iteration order, and `find_service` is exactly that
scan applied to the `list_services` result. -/
theorem claim3_find_service (svcs : List Service) (n : String)
    (ℓ : List (String × String)) :
    ((findFirst svcs n ℓ).isSome = true ↔
      ∃ s ∈ svcs, n = s.name ∧ labels_match ℓ s.labels = true) ∧
    (∀ hav : List (String × String),
      labels_match ℓ hav = true ↔ ∀ kv ∈ ℓ, hav.lookup kv.1 = some kv.2) ∧
    (∀ (peers : List String) (env : String → Int → FetchRes),
      find_service peers env n ℓ =
        (list_services peers env).map (fun l0 => findFirst l0 n ℓ)) ∧
    (∀ ap, findFirst svcs n ℓ = some ap →
      ∃ i s, svcs.get? i = some s ∧ n = s.name ∧
        labels_match ℓ s.labels = true ∧ ap = s.addr_port ∧
        ∀ j t, j < i → svcs.get? j = some t →
          ¬(n = t.name ∧ labels_match ℓ t.labels = true)) := by
  refine ⟨findFirst_isSome_iff n ℓ svcs, ?_, fun _ _ => rfl,
    findFirst_eq_some n ℓ svcs⟩
  intro hav
  simp [labels_match, List.all_eq_true]

/-- Claim C3: witness. Scenario 4 of the spec: `find("y", {env: prod})`
matches the advertised `y` service and returns its address. -/
theorem claim3_find_service_witness :
    ∃ i s, ([⟨"y", [("env", "prod")], "1.2.3.4", 20⟩] : List Service).get? i
        = some s ∧
      "y" = s.name ∧ labels_match [("env", "prod")] s.labels = true ∧
      ("1.2.3.4", (20 : Int)) = s.addr_port ∧
      ∀ j t, j < i →
        ([⟨"y", [("env", "prod")], "1.2.3.4", 20⟩] : List Service).get? j
          = some t →
        ¬("y" = t.name ∧ labels_match [("env", "prod")] t.labels = true) :=
  (claim3_find_service [⟨"y", [("env", "prod")], "1.2.3.4", 20⟩] "y"
    [("env", "prod")]).2.2.2 ("1.2.3.4", 20) (by decide)

/-- Claim C4. For a `Service` with a valid IPv4 address and a port in
range, validating its `model_dump(by_alias=True)` gives the service back,
and the dump renders the address under the wire key `addrPort` as the
single string `"ip:port"`. -/
theorem claim4_wire_round_trip (s : Service) (hv : ipv4Valid s.addr = true)
    (h1 : 0 < s.port) (h2 : s.port < 65536) :
    validate_service (model_dump s) = some s ∧
    ∃ fields, model_dump s = .obj fields ∧
      jsonLookup fields "addrPort" = some (.str (serialize_addr_port s.addr_port)) := by
  constructor
  · have hp : parse_addr_port (serialize_addr_port (s.addr, s.port))
        = some (s.addr, s.port) := parse_serialize hv (le_of_lt h1)
    simp [validate_service, model_dump, jsonLookup, List.lookup, labelsToJson,
      labels_round_trip, Option.orElse, Service.addr_port, hp]
  · exact ⟨_, rfl, by simp [jsonLookup, List.lookup]⟩

/-- Claim C4: witness at a concrete service. -/
theorem claim4_wire_round_trip_witness :
    validate_service (model_dump ⟨"svc", [("k", "v")], "1.2.3.4", 42⟩)
      = some ⟨"svc", [("k", "v")], "1.2.3.4", 42⟩ ∧
    ∃ fields, model_dump ⟨"svc", [("k", "v")], "1.2.3.4", 42⟩ = .obj fields ∧
      jsonLookup fields "addrPort"
        = some (.str (serialize_addr_port
            (Service.addr_port ⟨"svc", [("k", "v")], "1.2.3.4", 42⟩))) :=
  claim4_wire_round_trip ⟨"svc", [("k", "v")], "1.2.3.4", 42⟩ (by decide)
    (by decide) (by decide)

/-- Claim C5, counterexample. The claim says a non-200 status from a
reachable peer makes `list_services` fail with an error carrying the
offending peer's address. The exception the source raises carries only
the HTTP status and reason: two runs that differ only in the offending
peer's address fail with identical error values, so the error cannot
carry the address. -/
theorem claim5_counterexample :
    list_services ["9.9.9.9"] (fun _ _ => FetchRes.badStatus 500 "boom")
      = .error (FetchRes.badStatus 500 "boom") ∧
    list_services ["8.8.8.8"] (fun _ _ => FetchRes.badStatus 500 "boom")
      = .error (FetchRes.badStatus 500 "boom") :=
  ⟨rfl, rfl⟩

/-- Claim C5, amended. `list_services` queries every peer address on port
28004; connection-refused and timeout peers are swallowed (they contribute
nothing and the loop continues), while a non-200 status or a malformed
body from a reachable peer makes the call fail by propagating the
underlying fetch error — which carries the status and reason (or the
parse failure) but not the offending peer's address. -/
theorem claim5_amended_list_services (peers : List String)
    (env : String → Int → FetchRes) :
    ((∀ a ∈ peers, (env a 28004).fatal = false) →
      list_services peers env =
        .ok ((peers.map (fun a => (env a 28004).okPart)).flatten)) ∧
    (∀ a ∈ peers, (env a 28004).fatal = true →
      ∃ e, list_services peers env = .error e ∧ e.fatal = true) :=
  ⟨list_services_all_benign env peers, list_services_fatal env peers⟩

/-- Claim C5, amended: witness. A refused peer is skipped while an `ok`
peer contributes; a peer answering 500 makes the call fail. -/
theorem claim5_amended_list_services_witness :
    list_services ["1.1.1.1", "2.2.2.2"]
        (fun a _ => if a = "1.1.1.1" then FetchRes.ok [] else FetchRes.connRefused)
      = .ok [] ∧
    ∃ e, list_services ["3.3.3.3"] (fun _ _ => FetchRes.badStatus 500 "boom")
      = .error e ∧ e.fatal = true := by
  constructor
  · exact ((claim5_amended_list_services ["1.1.1.1", "2.2.2.2"]
      (fun a _ => if a = "1.1.1.1" then FetchRes.ok [] else FetchRes.connRefused)).1
        (by decide)).trans (by rfl)
  · exact (claim5_amended_list_services ["3.3.3.3"]
      (fun _ _ => FetchRes.badStatus 500 "boom")).2 "3.3.3.3" (by decide) (by decide)

/-- Claim C6. `unlist_service` on a registry with no entry for the port
raises `KeyError` (`none`) and the registry state is unchanged; on a
registry (satisfying the one-entry-per-port invariant) that does contain
the port, it removes exactly that entry, keeping all others in order. -/
theorem claim6_unlist (own : String) (svcs : List Service) (p : Int) :
    ((∀ s ∈ svcs, s.port ≠ p) → unlist_service svcs p = none ∧
      registryStep own svcs (.unlist p) = svcs) ∧
    (PortsNodup svcs → ∀ s ∈ svcs, s.port = p →
      unlist_service svcs p = some (svcs.filter (fun t => !(t.port == p)))) := by
  constructor
  · intro h
    have hn : removeFirstByPort p svcs = none := removeFirstByPort_of_not_mem h
    exact ⟨hn, by simp [registryStep, unlist_service, hn]⟩
  · intro hinv s hs hsp
    exact removeFirstByPort_eq_filter hinv s hs hsp

/-- Claim C6: witness. Unlisting port 2 from a registry holding only
port 1 fails and leaves the state unchanged; unlisting port 1 removes the
entry. -/
theorem claim6_unlist_witness :
    (unlist_service [⟨"a", [], "1.2.3.4", 1⟩] 2 = none ∧
      registryStep "1.2.3.4" [⟨"a", [], "1.2.3.4", 1⟩] (.unlist 2)
        = [⟨"a", [], "1.2.3.4", 1⟩]) ∧
    unlist_service [⟨"a", [], "1.2.3.4", 1⟩] 1
      = some (([⟨"a", [], "1.2.3.4", 1⟩] : List Service).filter
          (fun t => !(t.port == 1))) := by
  constructor
  · exact (claim6_unlist "1.2.3.4" [⟨"a", [], "1.2.3.4", 1⟩] 2).1 (by decide)
  · exact (claim6_unlist "1.2.3.4" [⟨"a", [], "1.2.3.4", 1⟩] 1).2
      (by simp [PortsNodup]) ⟨"a", [], "1.2.3.4", 1⟩ (by decide) (by decide)

/-- Claim C7. `POST /add-delegate` with a body that is not valid JSON is
answered 400 with the delegates list unchanged; a body that is valid JSON
of the form `{"addrPort": "ip:port"}` appends `(ip, port)` to the
delegates list and is answered 200. -/
theorem claim7_add_delegate (dels : List Delegate) :
    handle_add_delegate none dels = (some 400, dels) ∧
    ∀ (fs : List (String × Json)) (s : String) (a r : List Char) (p : Int),
      jsonLookup fs "addrPort" = some (.str s) →
      splitFirst ':' s.data = some (a, r) → pyIntChars r = some p →
      handle_add_delegate (some (.obj fs)) dels
        = (some 200, dels ++ [(String.mk a, p)]) := by
  refine ⟨rfl, ?_⟩
  intro fs s a r p h1 h2 h3
  rw [handle_add_delegate, postedPair_obj h1 h2 h3]

/-- Claim C7: witness. A malformed body yields 400 without mutation; the
body `{"addrPort": "1.2.3.4:9000"}` appends `("1.2.3.4", 9000)` with
status 200. -/
theorem claim7_add_delegate_witness :
    handle_add_delegate none [] = (some 400, []) ∧
    handle_add_delegate (some (.obj [("addrPort", .str "1.2.3.4:9000")])) []
      = (some 200, [("1.2.3.4", 9000)]) := by
  constructor
  · exact (claim7_add_delegate []).1
  · exact ((claim7_add_delegate []).2 [("addrPort", .str "1.2.3.4:9000")]
      "1.2.3.4:9000" "1.2.3.4".data "9000".data 9000 rfl rfl rfl).trans
      (by decide)

/-- Claim C8. Across every sequence of `advertise_service` and
`unlist_service` calls starting from the empty registry, at most one
entry exists per port; and replacing an entry via `advertise_service`
overwrites it in place (the state is the old list with the matching index
set to the new entry), preserving its position. -/
theorem claim8_registry_invariant (own : String) :
    (∀ ops : List RegOp, PortsNodup (runOps own ops [])) ∧
    (∀ (st : List Service) (p : Int) (n : String)
        (ℓ : List (String × String)) (i : Nat) (s : Service)
        (st' : List Service),
      ipv4Valid own = true → PortsNodup st → st.get? i = some s →
      s.port = p → advertise_service own st p n ℓ = some st' →
      st' = st.set i ⟨n, ℓ, own, p⟩) := by
  constructor
  · intro ops
    exact runOps_preserves own ops [] (by simp [PortsNodup])
  · intro st p n ℓ i s st' hv hinv hi hsp hadv
    rw [advertise_service] at hadv
    by_cases hc : 0 < p ∧ p < 2 ^ 16
    · rw [if_pos hc, make_service, parse_serialize hv (le_of_lt hc.1)] at hadv
      have hrw : replaceOrAppend p ⟨n, ℓ, own, p⟩ st = st' := by
        simpa using hadv
      rw [← hrw]
      exact replaceOrAppend_set hinv hi hsp
    · rw [if_neg hc] at hadv
      exact absurd hadv (by simp)

/-- Claim C8: witness. Re-advertising port 42 replaces the entry in
place at index 0, and a small operation sequence keeps ports unique. -/
theorem claim8_registry_invariant_witness :
    PortsNodup (runOps "1.2.3.4"
      [.advertise 42 "a" [], .advertise 42 "b" [], .unlist 42,
       .advertise 7 "c" []] []) ∧
    [⟨"b", [], "1.2.3.4", 42⟩]
      = ([⟨"a", [], "1.2.3.4", 42⟩] : List Service).set 0
          ⟨"b", [], "1.2.3.4", 42⟩ := by
  constructor
  · exact (claim8_registry_invariant "1.2.3.4").1
      [.advertise 42 "a" [], .advertise 42 "b" [], .unlist 42,
       .advertise 7 "c" []]
  · exact (claim8_registry_invariant "1.2.3.4").2
      [⟨"a", [], "1.2.3.4", 42⟩] 42 "b" [] 0 ⟨"a", [], "1.2.3.4", 42⟩
      [⟨"b", [], "1.2.3.4", 42⟩] (by decide) (by simp [PortsNodup]) (by decide)
      (by decide) (by decide)

/-- Claim C9, counterexample. The claim says every delegates-list entry
satisfies `addr == own_addr` and `port ≠ 28004` after every mutating
operation. The `/add-delegate` handler performs no such check: posting
`{"addrPort": "9.9.9.9:28004"}` to a leader whose own address is
`"1.2.3.4"` succeeds with 200 and leaves an entry violating both
conjuncts. -/
theorem claim9_counterexample :
    handle_add_delegate (some (.obj [("addrPort", .str "9.9.9.9:28004")])) []
      = (some 200, [("9.9.9.9", 28004)]) ∧
    ¬ DelegatesInv "1.2.3.4" [("9.9.9.9", 28004)] := by
  refine ⟨by decide, ?_⟩
  intro h
  have := h ("9.9.9.9", 28004) (by simp)
  exact absurd this.1 (by decide)

/-- Claim C9, amended. The `/add-delegate` handler appends exactly the
pair the body denotes, unconditionally; the invariant
`addr == own_addr ∧ port ≠ 28004` is preserved provided every registered
pair satisfies it — which the node's own registration path guarantees,
since `_add_delegate` asserts `port != 28004` and posts the node's own
address — and eviction during `GET /services` only removes entries, so it
also preserves the invariant. -/
theorem claim9_amended_delegates_invariant (own : String)
    (dels : List Delegate) :
    (∀ parsed : Option Json, DelegatesInv own dels →
      (∀ pr : Delegate, parsed.bind postedPair = some pr →
        pr.1 = own ∧ pr.2 ≠ 28004) →
      DelegatesInv own (handle_add_delegate parsed dels).2) ∧
    (∀ (reg : List Service) (fetch : Delegate → FetchRes),
      DelegatesInv own dels →
      DelegatesInv own (handle_services reg dels fetch).2) ∧
    (∀ (port : Int) (body : Json), add_delegate own port = some body →
      ':' ∉ own.data → 0 ≤ port →
      postedPair body = some (own, port) ∧ port ≠ 28004) := by
  refine ⟨?_, ?_, ?_⟩
  · intro parsed hinv hpr
    match parsed with
    | none => simpa [handle_add_delegate] using hinv
    | some j =>
      rcases hp : postedPair j with _ | pr
      · simpa [handle_add_delegate, hp] using hinv
      · simp only [handle_add_delegate, hp]
        intro d hd
        rcases List.mem_append.mp hd with h' | h'
        · exact hinv d h'
        · have : d = pr := by simpa using h'
          rw [this]
          exact hpr pr (by simp [hp])
  · intro reg fetch hinv d hd
    rw [handle_services] at hd
    exact hinv d (fetchDelegates_snd_subset fetch dels reg dels d hd)
  · intro port body hadd hnc hp0
    rw [add_delegate] at hadd
    by_cases hq : port = 28004
    · rw [if_pos hq] at hadd
      exact absurd hadd (by simp)
    · rw [if_neg hq] at hadd
      have : add_delegate_body own port = body := by simpa using hadd
      rw [← this]
      exact ⟨postedPair_add_delegate_body hnc hp0, hq⟩

/-- Claim C9, amended: witness. The invariant is preserved by a 400
response, by an eviction-free aggregation, and the node's own
registration body denotes exactly `(own, port)` with `port ≠ 28004`. -/
theorem claim9_amended_delegates_invariant_witness :
    DelegatesInv "1.2.3.4" (handle_add_delegate none []).2 ∧
    DelegatesInv "1.2.3.4"
      (handle_services [] [] (fun _ => FetchRes.ok [])).2 ∧
    (postedPair (add_delegate_body "1.2.3.4" 5000)
        = some ("1.2.3.4", 5000) ∧ (5000 : Int) ≠ 28004) := by
  refine ⟨?_, ?_, ?_⟩
  · exact (claim9_amended_delegates_invariant "1.2.3.4" []).1 none
      (by simp [DelegatesInv]) (by simp)
  · exact (claim9_amended_delegates_invariant "1.2.3.4" []).2.1 []
      (fun _ => FetchRes.ok []) (by simp [DelegatesInv])
  · exact (claim9_amended_delegates_invariant "1.2.3.4" []).2.2 5000
      (add_delegate_body "1.2.3.4" 5000) rfl (by decide) (by decide)

/-- Claim C10. Wire decoding never enforces the data model's port range:
`"1.2.3.4:70000"` and `"1.2.3.4:0"` decode successfully, carrying the
out-of-range port unchanged, both through `parse_addr_port` and through
full `Service` validation. -/
theorem claim10_decode_ignores_port_range :
    parse_addr_port "1.2.3.4:70000" = some ("1.2.3.4", 70000) ∧
    ¬(0 < (70000 : Int) ∧ (70000 : Int) < 65536) ∧
    parse_addr_port "1.2.3.4:0" = some ("1.2.3.4", 0) ∧
    validate_service (.obj [("name", .str "s"), ("labels", .obj []),
        ("addrPort", .str "1.2.3.4:70000")])
      = some ⟨"s", [], "1.2.3.4", 70000⟩ :=
  ⟨by decide, by decide, by decide, by decide⟩

end Minidisc
